import Mathlib

/-!
Shallow embedding of the ULID identifier subsystem of `attestify/kernel-oss`:
the Crockford Base32 codec (`src/ulid/base32.rs`) and the 128-bit identifier
value (`src/ulid/mod.rs`).

Conventions of the embedding:
* `u128` / `u64` / `u8` values are `Nat`, with an explicit `% 2 ^ 128`
  wherever the Rust arithmetic can wrap (the shift-accumulate in `decode`).
* Rust byte strings are `List Nat`, one entry per byte.
* Fallible operations return `Except` / `Option`, as the Rust code returns
  `Result` / `Option`.
-/

/-- Length of a string-encoded ULID (`ULID_LEN` in `base32.rs`). -/
def ULID_LEN : Nat := 26

/-- The Crockford Base32 alphabet, as byte values
(`b"0123456789ABCDEFGHJKMNPQRSTVWXYZ"` in `base32.rs`). -/
def ALPHABET : List Nat :=
  [48, 49, 50, 51, 52, 53, 54, 55, 56, 57, 65, 66, 67, 68, 69, 70, 71, 72,
   74, 75, 77, 78, 80, 81, 82, 83, 84, 86, 87, 88, 89, 90]

/-- The sentinel marking an invalid byte in the reverse lookup table
(`NO_VALUE` in `base32.rs`). -/
def NO_VALUE : Nat := 255

/-- The 256-entry reverse lookup table (`LOOKUP` in `base32.rs`),
transcribed entry by entry. -/
def LOOKUP : List Nat :=
  [255, 255, 255, 255, 255, 255, 255, 255, 255, 255, 255, 255, 255, 255, 255, 255,
   255, 255, 255, 255, 255, 255, 255, 255, 255, 255, 255, 255, 255, 255, 255, 255,
   255, 255, 255, 255, 255, 255, 255, 255, 255, 255, 255, 255, 255, 255, 255, 255,
   0, 1, 2, 3, 4, 5, 6, 7, 8, 9, 255, 255, 255, 255, 255, 255,
   255, 10, 11, 12, 13, 14, 15, 16, 17, 255, 18, 19, 255, 20, 21, 255,
   22, 23, 24, 25, 26, 255, 27, 28, 29, 30, 31, 255, 255, 255, 255, 255,
   255, 10, 11, 12, 13, 14, 15, 16, 17, 255, 18, 19, 255, 20, 21, 255,
   22, 23, 24, 25, 26, 255, 27, 28, 29, 30, 31, 255, 255, 255, 255, 255,
   255, 255, 255, 255, 255, 255, 255, 255, 255, 255, 255, 255, 255, 255, 255, 255,
   255, 255, 255, 255, 255, 255, 255, 255, 255, 255, 255, 255, 255, 255, 255, 255,
   255, 255, 255, 255, 255, 255, 255, 255, 255, 255, 255, 255, 255, 255, 255, 255,
   255, 255, 255, 255, 255, 255, 255, 255, 255, 255, 255, 255, 255, 255, 255, 255,
   255, 255, 255, 255, 255, 255, 255, 255, 255, 255, 255, 255, 255, 255, 255, 255,
   255, 255, 255, 255, 255, 255, 255, 255, 255, 255, 255, 255, 255, 255, 255, 255,
   255, 255, 255, 255, 255, 255, 255, 255, 255, 255, 255, 255, 255, 255, 255, 255,
   255, 255, 255, 255, 255, 255, 255, 255, 255, 255, 255, 255, 255, 255, 255, 255]

/-- Indexing `LOOKUP` with a byte, as `LOOKUP[bytes[i] as usize]` does in
`decode`; a byte is always in range of the 256-entry table, so the
`NO_VALUE` default is never taken on byte input. -/
def lookupByte (b : Nat) : Nat := LOOKUP.getD b NO_VALUE

/-- Errors of the buffer-bounded encoder (`EncodeError` in `base32.rs`).
The variant is declared in the source but no function there ever
produces it. -/
inductive EncodeError where
  | BufferTooSmall : EncodeError
deriving DecidableEq

/-- Errors of `decode` (`DecodeError` in `base32.rs`). -/
inductive DecodeError where
  | InvalidLength : DecodeError
  | InvalidChar : DecodeError
deriving DecidableEq

/-- The write loop of `encode_to_array`: with `n` iterations remaining the
Rust loop index is `i = ULID_LEN - n`, so the write goes to index
`ULID_LEN - 1 - i = n - 1`; each step stores
`ALPHABET[(value & 0x1f) as usize]` and then shifts `value` right by 5. -/
def encodeWrites : Nat → Nat → List Nat → List Nat
  | 0, _, buffer => buffer
  | n + 1, value, buffer =>
      encodeWrites n (value >>> 5) (buffer.set n (ALPHABET.getD (value &&& 0x1f) 0))

/-- Embedding of `encode_to_array` (`base32.rs`). In the source the buffer
has the fixed Rust type `&mut [u8; ULID_LEN]`, so its length is exactly 26
by typing; the embedding returns the final buffer contents. -/
def encode_to_array (value : Nat) (buffer : List Nat) : List Nat :=
  encodeWrites ULID_LEN value buffer

/-- Embedding of `encode` (`base32.rs`): fill a fresh zeroed 26-byte buffer.
The resulting byte list is the Rust `String`'s UTF-8 bytes. -/
def encode (value : Nat) : List Nat :=
  encode_to_array value (List.replicate ULID_LEN 0)

/-- The accumulation step of `decode`: `value = (value << 5) | val` in
`u128` arithmetic, so the shift wraps modulo `2 ^ 128`. -/
def decodeStep (value digit : Nat) : Nat :=
  ((value <<< 5) % 2 ^ 128) ||| digit

/-- The character loop of `decode` (`base32.rs`): look each byte up in
`LOOKUP`, fail with `InvalidChar` at the first sentinel, otherwise
shift-accumulate. -/
def decodeLoop : List Nat → Nat → Except DecodeError Nat
  | [], value => .ok value
  | b :: rest, value =>
      let val := lookupByte b
      if val ≠ NO_VALUE then decodeLoop rest (decodeStep value val)
      else .error .InvalidChar

/-- Embedding of `decode` (`base32.rs`): reject any input whose byte length
is not `ULID_LEN` before looking at a single character, then run the
character loop from 0. -/
def decode (encoded : List Nat) : Except DecodeError Nat :=
  if encoded.length ≠ ULID_LEN then .error .InvalidLength
  else decodeLoop encoded 0

/-- Right-aligned bitmask of `len` bits (the `bitmask!` helper in
`ulid/mod.rs`). -/
def bitmask (len : Nat) : Nat := (1 <<< len) - 1

/-- A ULID: a newtype over the 128-bit integer (`pub struct ULID(pub u128)`),
whose derived comparison is the numeric comparison of that integer. -/
structure ULID where
  val : Nat
deriving DecidableEq

instance : LT ULID := ⟨fun a b => a.val < b.val⟩

instance : LE ULID := ⟨fun a b => a.val ≤ b.val⟩

/-- Number of bits in the time portion (`ULID::TIME_BITS`). -/
def ULID.TIME_BITS : Nat := 48

/-- Number of bits in the random portion (`ULID::RAND_BITS`). -/
def ULID.RAND_BITS : Nat := 80

/-- Embedding of `ULID::from_parts`: mask the timestamp to 48 bits and the
random part to 80 bits, then compose `(time << 80) | random`. The shifted
time part is below `2 ^ 128`, so the `u128` arithmetic is exact. -/
def ULID.from_parts (timestamp_ms random : Nat) : ULID :=
  let time_part := timestamp_ms &&& bitmask ULID.TIME_BITS
  let rand_part := random &&& bitmask ULID.RAND_BITS
  ⟨(time_part <<< ULID.RAND_BITS) ||| rand_part⟩

/-- Embedding of `ULID::from_string`: delegate to the codec. -/
def ULID.from_string (encoded : List Nat) : Except DecodeError ULID :=
  match decode encoded with
  | .ok int_val => .ok ⟨int_val⟩
  | .error err => .error err

/-- Embedding of `ULID::nil`. -/
def ULID.nil : ULID := ⟨0⟩

/-- Embedding of `ULID::random`: the low 80 bits. -/
def ULID.random (u : ULID) : Nat := u.val &&& bitmask ULID.RAND_BITS

/-- Embedding of `ULID::is_nil`. -/
def ULID.is_nil (u : ULID) : Bool := u.val == 0

/-- Embedding of `ULID::increment`: refuse when the low 80 bits are all
ones, otherwise add one to the whole value. On the `u128` domain the
addition cannot overflow, because a value below `2 ^ 128` whose low 80 bits
are not all ones is at most `2 ^ 128 - 2`. -/
def ULID.increment (u : ULID) : Option ULID :=
  let MAX_RANDOM := bitmask ULID.RAND_BITS
  if u.val &&& MAX_RANDOM = MAX_RANDOM then none
  else some ⟨u.val + 1⟩

/-- Embedding of `impl Default for ULID`. -/
def ULID.default : ULID := ULID.nil

/-- Embedding of `impl From<(u64, u64)> for ULID`:
`ULID(u128::from(msb) << 64 | u128::from(lsb))`. -/
def ULID.from_u64_pair (p : Nat × Nat) : ULID :=
  ⟨(p.1 <<< 64) ||| p.2⟩

/-- Embedding of `impl From<ULID> for (u64, u64)`:
`((ulid.0 >> 64) as u64, (ulid.0 & bitmask!(64)) as u64)`. -/
def ULID.to_u64_pair (u : ULID) : Nat × Nat :=
  (u.val >>> 64, u.val &&& bitmask 64)

/-- The claimed behaviour of a buffer-bounded encoder, written from the
spec sentence: with fewer than 26 bytes of output space report
`BufferTooSmall`, otherwise succeed with the filled buffer. It exists only
to be compared with the actual `encode_to_array`, whose fixed-size buffer
type admits no failure path. -/
def encode_to_array_claimed (value : Nat) (buffer : List Nat) :
    Except EncodeError (List Nat) :=
  if buffer.length < ULID_LEN then .error .BufferTooSmall
  else .ok (encode_to_array value buffer)

/-- ASCII uppercasing of one byte. Every byte a valid ULID string may
contain is ASCII, where Rust's `str::to_uppercase` acts exactly like this
byte map. -/
def to_uppercase (b : Nat) : Nat :=
  if 97 ≤ b ∧ b ≤ 122 then b - 32 else b

/-- Big-endian list of the `n` low base-32 digits of `v` (head is the most
significant digit). This is the mathematical description of the buffer
`encode_to_array` produces, used to state and prove its properties. -/
def digitsBE : Nat → Nat → List Nat
  | 0, _ => []
  | n + 1, v => v / 32 ^ n % 32 :: digitsBE n v

deriving instance DecidableEq for Except

/-! ### Arithmetic bridges for the bit operations of the source -/

theorem and_thirtyone (v : Nat) : v &&& 0x1f = v % 32 := by
  have h := Nat.and_pow_two_sub_one_eq_mod v 5
  norm_num at h
  exact h

theorem shiftRight_five (v : Nat) : v >>> 5 = v / 32 := by
  rw [Nat.shiftRight_eq_div_pow]

theorem shiftLeft_five (v : Nat) : v <<< 5 = v * 32 := by
  rw [Nat.shiftLeft_eq]

theorem bitmask_eq (n : Nat) : bitmask n = 2 ^ n - 1 := by
  unfold bitmask
  rw [Nat.shiftLeft_eq, one_mul]

theorem and_bitmask (v n : Nat) : v &&& bitmask n = v % 2 ^ n := by
  rw [bitmask_eq, Nat.and_pow_two_sub_one_eq_mod]

theorem or_eq_add_of_lt {k b : Nat} (a : Nat) (h : b < 2 ^ k) :
    (2 ^ k * a) ||| b = 2 ^ k * a + b :=
  (Nat.mul_add_lt_is_or h a).symm

/-! ### The buffer write loop of `encode_to_array` -/

theorem drop_set_cons {α : Type} : ∀ (l : List α) (n : Nat) (x : α), n < l.length →
    (l.set n x).drop n = x :: l.drop (n + 1)
  | [], n, x, h => by simp at h
  | _ :: t, 0, x, _ => by simp
  | _ :: t, n + 1, x, h => by
      simpa using drop_set_cons t n x (by simpa using h)

theorem digitsBE_length (n v : Nat) : (digitsBE n v).length = n := by
  induction n generalizing v with
  | zero => rfl
  | succ n ih => simp [digitsBE, ih]

theorem digitsBE_lt (n v : Nat) : ∀ d ∈ digitsBE n v, d < 32 := by
  induction n generalizing v with
  | zero => simp [digitsBE]
  | succ n ih =>
      intro d hd
      rcases List.mem_cons.mp hd with h | h
      · subst h
        exact Nat.mod_lt _ (by norm_num)
      · exact ih v d h

theorem digitsBE_succ_append (n v : Nat) :
    digitsBE (n + 1) v = digitsBE n (v / 32) ++ [v % 32] := by
  induction n generalizing v with
  | zero => simp [digitsBE]
  | succ n ih =>
      have hdiv : v / 32 / 32 ^ n = v / 32 ^ (n + 1) := by
        rw [Nat.div_div_eq_div_mul, pow_succ, mul_comm]
      calc digitsBE (n + 2) v
          = v / 32 ^ (n + 1) % 32 :: digitsBE (n + 1) v := rfl
        _ = v / 32 ^ (n + 1) % 32 :: (digitsBE n (v / 32) ++ [v % 32]) := by rw [ih]
        _ = (v / 32 / 32 ^ n % 32 :: digitsBE n (v / 32)) ++ [v % 32] := by
              rw [hdiv]; rfl
        _ = digitsBE (n + 1) (v / 32) ++ [v % 32] := rfl

theorem encodeWrites_eq : ∀ (n v : Nat) (buffer : List Nat), n ≤ buffer.length →
    encodeWrites n v buffer =
      (digitsBE n v).map (fun d => ALPHABET.getD d 0) ++ buffer.drop n := by
  intro n
  induction n with
  | zero => intro v buffer _; simp [encodeWrites, digitsBE]
  | succ n ih =>
      intro v buffer h
      have hlt : n < buffer.length := Nat.lt_of_succ_le h
      have hlen : n ≤ (buffer.set n (ALPHABET.getD (v &&& 0x1f) 0)).length := by
        rw [List.length_set]; exact Nat.le_of_lt hlt
      calc encodeWrites (n + 1) v buffer
          = encodeWrites n (v >>> 5) (buffer.set n (ALPHABET.getD (v &&& 0x1f) 0)) := rfl
        _ = (digitsBE n (v >>> 5)).map (fun d => ALPHABET.getD d 0) ++
              (buffer.set n (ALPHABET.getD (v &&& 0x1f) 0)).drop n := ih _ _ hlen
        _ = (digitsBE n (v / 32)).map (fun d => ALPHABET.getD d 0) ++
              (ALPHABET.getD (v % 32) 0 :: buffer.drop (n + 1)) := by
              rw [shiftRight_five, drop_set_cons buffer n _ hlt, and_thirtyone]
        _ = (digitsBE (n + 1) v).map (fun d => ALPHABET.getD d 0) ++ buffer.drop (n + 1) := by
              rw [digitsBE_succ_append, List.map_append]
              simp

theorem encode_to_array_eq_digits (v : Nat) (buffer : List Nat)
    (h : buffer.length = 26) :
    encode_to_array v buffer = (digitsBE 26 v).map (fun d => ALPHABET.getD d 0) := by
  unfold encode_to_array ULID_LEN
  rw [encodeWrites_eq 26 v buffer (by omega)]
  have : buffer.drop 26 = [] := by
    rw [← h]; exact List.drop_length buffer
  rw [this, List.append_nil]

theorem encode_eq_digits (v : Nat) :
    encode v = (digitsBE 26 v).map (fun d => ALPHABET.getD d 0) :=
  encode_to_array_eq_digits v _ (by simp [ULID_LEN])

theorem encode_length (v : Nat) : (encode v).length = 26 := by
  rw [encode_eq_digits, List.length_map, digitsBE_length]

/-! ### Facts about the lookup table -/

set_option maxRecDepth 10000

theorem LOOKUP_length : LOOKUP.length = 256 := by decide

theorem lookupByte_default (b : Nat) (h : 256 ≤ b) : lookupByte b = NO_VALUE := by
  unfold lookupByte
  exact List.getD_eq_default LOOKUP NO_VALUE (by rw [LOOKUP_length]; exact h)

theorem lookupByte_lt_32 (b : Nat) (h : lookupByte b ≠ NO_VALUE) : lookupByte b < 32 := by
  by_cases hb : b < 256
  · have hball : ∀ c, c < 256 → lookupByte c ≠ NO_VALUE → lookupByte c < 32 := by decide
    exact hball b hb h
  · exact absurd (lookupByte_default b (by omega)) h

theorem lookup_alphabet (d : Nat) (h : d < 32) :
    lookupByte (ALPHABET.getD d 0) = d := by
  have hball : ∀ c, c < 32 → lookupByte (ALPHABET.getD c 0) = c := by decide
  exact hball d h

theorem alphabet_strictMono (x y : Nat) (hx : x < 32) (hy : y < 32) (hxy : x < y) :
    ALPHABET.getD x 0 < ALPHABET.getD y 0 := by
  have hball : ∀ a, a < 32 → ∀ b, b < 32 → a < b → ALPHABET.getD a 0 < ALPHABET.getD b 0 := by
    decide
  exact hball x hx y hy hxy

/-! ### The accumulation loop of `decode` -/

theorem decodeStep_eq (A d : Nat) (hd : d < 32) :
    decodeStep (A % 2 ^ 128) d = (A * 32 + d) % 2 ^ 128 := by
  unfold decodeStep
  rw [shiftLeft_five, Nat.mod_mul_mod]
  have h32 : (32 : Nat) ∣ A * 32 % 2 ^ 128 := by
    rw [Nat.dvd_mod_iff (by norm_num)]
    exact dvd_mul_left 32 A
  obtain ⟨q, hq⟩ := h32
  have h25 : (2 : Nat) ^ 5 = 32 := by norm_num
  have hq' : A * 32 % 2 ^ 128 = 2 ^ 5 * q := by rw [hq, h25]
  have h2 : (2 : Nat) ^ 128 = 32 * 2 ^ 123 := by norm_num
  have hlt : 32 * q < 2 ^ 128 := by
    rw [← hq]
    exact Nat.mod_lt _ (by positivity)
  have hsum : 32 * q + d < 2 ^ 128 := by omega
  have hsum2 : 2 ^ 5 * q + d < 2 ^ 128 := by rw [h25]; exact hsum
  have hd5 : d < 2 ^ 5 := by rw [h25]; exact hd
  have hd128 : d % 2 ^ 128 = d := Nat.mod_eq_of_lt (by omega)
  rw [hq', or_eq_add_of_lt q hd5, Nat.add_mod, hq', hd128]
  exact (Nat.mod_eq_of_lt hsum2).symm

theorem decodeLoop_valid : ∀ (s : List Nat) (A : Nat),
    (∀ b ∈ s, lookupByte b ≠ NO_VALUE) →
    decodeLoop s (A % 2 ^ 128) =
      .ok (List.foldl (fun a d => a * 32 + d) A (s.map lookupByte) % 2 ^ 128)
  | [], A, _ => by simp [decodeLoop]
  | b :: rest, A, h => by
      have hb : lookupByte b ≠ NO_VALUE := h b (List.mem_cons_self b rest)
      have hrest : ∀ c ∈ rest, lookupByte c ≠ NO_VALUE := fun c hc =>
        h c (List.mem_cons_of_mem b hc)
      have hstep := decodeStep_eq A (lookupByte b) (lookupByte_lt_32 b hb)
      calc decodeLoop (b :: rest) (A % 2 ^ 128)
          = decodeLoop rest (decodeStep (A % 2 ^ 128) (lookupByte b)) := by
            simp [decodeLoop, hb]
        _ = decodeLoop rest ((A * 32 + lookupByte b) % 2 ^ 128) := by rw [hstep]
        _ = .ok (List.foldl (fun a d => a * 32 + d) (A * 32 + lookupByte b)
              (rest.map lookupByte) % 2 ^ 128) :=
            decodeLoop_valid rest (A * 32 + lookupByte b) hrest
        _ = .ok (List.foldl (fun a d => a * 32 + d) A
              ((b :: rest).map lookupByte) % 2 ^ 128) := by
            simp [List.foldl]

theorem foldl_muladd_digitsBE : ∀ (n A v : Nat),
    List.foldl (fun a d => a * 32 + d) A (digitsBE n v) = A * 32 ^ n + v % 32 ^ n := by
  intro n
  induction n with
  | zero => intro A v; simp [digitsBE, Nat.mod_one]
  | succ n ih =>
      intro A v
      rw [digitsBE_succ_append, List.foldl_append, List.foldl_cons, List.foldl_nil, ih]
      have hmod : v % 32 ^ (n + 1) = v % 32 + 32 * (v / 32 % 32 ^ n) := by
        rw [pow_succ']
        exact Nat.mod_mul
      rw [hmod, pow_succ]
      ring

theorem encode_bytes_valid (v : Nat) : ∀ b ∈ encode v, lookupByte b ≠ NO_VALUE := by
  intro b hb
  rw [encode_eq_digits] at hb
  obtain ⟨d, hd, rfl⟩ := List.mem_map.mp hb
  have hdlt := digitsBE_lt 26 v d hd
  rw [lookup_alphabet d hdlt]
  unfold NO_VALUE
  omega

theorem encode_map_lookup (v : Nat) : (encode v).map lookupByte = digitsBE 26 v := by
  rw [encode_eq_digits, List.map_map]
  have hpt : ∀ d ∈ digitsBE 26 v, (lookupByte ∘ fun d => ALPHABET.getD d 0) d = id d := by
    intro d hd
    simp only [Function.comp, id]
    exact lookup_alphabet d (digitsBE_lt 26 v d hd)
  rw [List.map_congr_left hpt, List.map_id]

/-- C1: for every 128-bit value `v`, decoding the encoding of `v` succeeds
and returns `v` itself: `decode (encode v) = Ok v`. -/
theorem decode_encode_roundtrip (v : Nat) (hv : v < 2 ^ 128) :
    decode (encode v) = .ok v := by
  unfold decode
  rw [if_neg (by rw [encode_length]; simp [ULID_LEN])]
  have hloop := decodeLoop_valid (encode v) 0 (encode_bytes_valid v)
  rw [Nat.zero_mod] at hloop
  rw [hloop, encode_map_lookup, foldl_muladd_digitsBE]
  have h26 : (32 : Nat) ^ 26 = 2 ^ 130 := by norm_num
  have h130 : (2 : Nat) ^ 128 < 2 ^ 130 := by norm_num
  have hv26 : v % 32 ^ 26 = v := Nat.mod_eq_of_lt (by omega)
  rw [zero_mul, zero_add, hv26, Nat.mod_eq_of_lt hv]

/-- Witness for C1 at the concrete value 3. -/
theorem decode_encode_roundtrip_witness : decode (encode 3) = .ok 3 :=
  decode_encode_roundtrip 3 (by norm_num)

/-! ### The identifier value -/

theorem from_parts_val (t r : Nat) :
    (ULID.from_parts t r).val = t % 2 ^ 48 * 2 ^ 80 + r % 2 ^ 80 := by
  show ((t &&& bitmask 48) <<< 80) ||| (r &&& bitmask 80)
      = t % 2 ^ 48 * 2 ^ 80 + r % 2 ^ 80
  rw [and_bitmask, and_bitmask, Nat.shiftLeft_eq]
  rw [show t % 2 ^ 48 * 2 ^ 80 = 2 ^ 80 * (t % 2 ^ 48) from mul_comm _ _]
  exact or_eq_add_of_lt (t % 2 ^ 48) (Nat.mod_lt _ (by norm_num))

theorem from_parts_val_lt (t r : Nat) : (ULID.from_parts t r).val < 2 ^ 128 := by
  rw [from_parts_val]
  have ht : t % 2 ^ 48 < 2 ^ 48 := Nat.mod_lt _ (by norm_num)
  have hr : r % 2 ^ 80 < 2 ^ 80 := Nat.mod_lt _ (by norm_num)
  calc t % 2 ^ 48 * 2 ^ 80 + r % 2 ^ 80
      ≤ (2 ^ 48 - 1) * 2 ^ 80 + (2 ^ 80 - 1) :=
        Nat.add_le_add (Nat.mul_le_mul_right _ (by omega)) (by omega)
    _ < 2 ^ 128 := by norm_num

theorem random_val (u : ULID) : ULID.random u = u.val % 2 ^ 80 := by
  unfold ULID.random ULID.RAND_BITS
  rw [and_bitmask]

theorem increment_val (u : ULID) :
    ULID.increment u = if u.val % 2 ^ 80 = 2 ^ 80 - 1 then none else some ⟨u.val + 1⟩ := by
  show (if u.val &&& bitmask 80 = bitmask 80 then none else some (ULID.mk (u.val + 1)))
      = if u.val % 2 ^ 80 = 2 ^ 80 - 1 then none else some ⟨u.val + 1⟩
  rw [and_bitmask, bitmask_eq]

/-- C7: `from_parts(t, r)` yields the identifier whose 128-bit value is
`(t mod 2^48) * 2^80 + (r mod 2^80)` (that is, `((t mod 2^48) << 80) | (r mod 2^80)`):
bits of `t` beyond the low 48 and bits of `r` beyond the low 80 are
discarded, the composed value always fits in 128 bits, and the operation
is total (it returns an identifier for every input). -/
theorem from_parts_layout (t r : Nat) :
    (ULID.from_parts t r).val = t % 2 ^ 48 * 2 ^ 80 + r % 2 ^ 80
      ∧ (ULID.from_parts t r).val < 2 ^ 128 :=
  ⟨from_parts_val t r, from_parts_val_lt t r⟩

/-- C2: incrementing `from_parts t r` with `r + 1` still inside 80 bits
yields `from_parts t (r + 1)`; incrementing at the all-ones random field
yields none; and every successful increment leaves the bits above position
80 unchanged while adding exactly one to the low 80-bit random field. -/
theorem increment_from_parts :
    (∀ t r : Nat, r + 1 < 2 ^ 80 →
        ULID.increment (ULID.from_parts t r) = some (ULID.from_parts t (r + 1)))
    ∧ (∀ t : Nat, ULID.increment (ULID.from_parts t (2 ^ 80 - 1)) = none)
    ∧ (∀ u u' : ULID, ULID.increment u = some u' →
        u'.val / 2 ^ 80 = u.val / 2 ^ 80 ∧ ULID.random u' = ULID.random u + 1) := by
  refine ⟨?_, ?_, ?_⟩
  · intro t r hr
    have hval := from_parts_val t r
    have hval' := from_parts_val t (r + 1)
    rw [increment_val]
    rw [if_neg (by rw [hval]; omega)]
    have : (ULID.from_parts t r).val + 1 = (ULID.from_parts t (r + 1)).val := by
      rw [hval, hval']
      omega
    rw [this]
  · intro t
    have hval := from_parts_val t (2 ^ 80 - 1)
    rw [increment_val]
    rw [if_pos (by rw [hval]; omega)]
  · intro u u' h
    rw [increment_val] at h
    by_cases hc : u.val % 2 ^ 80 = 2 ^ 80 - 1
    · rw [if_pos hc] at h
      exact absurd h (by simp)
    · rw [if_neg hc] at h
      have hu' : u' = ⟨u.val + 1⟩ := (Option.some.inj h).symm
      subst hu'
      rw [random_val, random_val]
      constructor
      · show (u.val + 1) / 2 ^ 80 = u.val / 2 ^ 80
        omega
      · show (u.val + 1) % 2 ^ 80 = u.val % 2 ^ 80 + 1
        omega

/-- Witness for C2 at `t = 5`, `r = 7` and at the saturated random field. -/
theorem increment_from_parts_witness :
    ULID.increment (ULID.from_parts 5 7) = some (ULID.from_parts 5 8)
      ∧ ULID.increment (ULID.from_parts 5 (2 ^ 80 - 1)) = none
      ∧ ULID.random (⟨4⟩ : ULID) = ULID.random (⟨3⟩ : ULID) + 1 :=
  ⟨increment_from_parts.1 5 7 (by norm_num),
   increment_from_parts.2.1 5,
   (increment_from_parts.2.2 ⟨3⟩ ⟨4⟩ (by decide)).2⟩

theorem to_u64_pair_val (u : ULID) :
    ULID.to_u64_pair u = (u.val / 2 ^ 64, u.val % 2 ^ 64) := by
  unfold ULID.to_u64_pair
  rw [Nat.shiftRight_eq_div_pow, and_bitmask]

theorem from_u64_pair_val (m l : Nat) (hl : l < 2 ^ 64) :
    (ULID.from_u64_pair (m, l)).val = m * 2 ^ 64 + l := by
  show (m <<< 64) ||| l = m * 2 ^ 64 + l
  rw [Nat.shiftLeft_eq, show m * 2 ^ 64 = 2 ^ 64 * m from mul_comm _ _]
  exact or_eq_add_of_lt m hl

/-- C9: the conversion between an identifier and its pair of 64-bit halves
is the identity in both directions, and the first element of the pair is the
most-significant 64 bits: the pair `(msb, lsb)` builds the value
`msb * 2^64 + lsb` and converting back recovers exactly those halves. -/
theorem u64_pair_roundtrip :
    (∀ v : Nat, ULID.from_u64_pair (ULID.to_u64_pair ⟨v⟩) = (⟨v⟩ : ULID))
    ∧ (∀ m l : Nat, m < 2 ^ 64 → l < 2 ^ 64 →
        ULID.to_u64_pair (ULID.from_u64_pair (m, l)) = (m, l)
          ∧ (ULID.from_u64_pair (m, l)).val = m * 2 ^ 64 + l) := by
  constructor
  · intro v
    rw [to_u64_pair_val]
    have hval := from_u64_pair_val (v / 2 ^ 64) (v % 2 ^ 64) (by omega)
    have : (ULID.from_u64_pair (v / 2 ^ 64, v % 2 ^ 64)).val = v := by rw [hval]; omega
    calc ULID.from_u64_pair (v / 2 ^ 64, v % 2 ^ 64)
        = ⟨(ULID.from_u64_pair (v / 2 ^ 64, v % 2 ^ 64)).val⟩ := rfl
      _ = (⟨v⟩ : ULID) := by rw [this]
  · intro m l hm hl
    have hval := from_u64_pair_val m l hl
    refine ⟨?_, hval⟩
    rw [to_u64_pair_val, hval]
    have h1 : (m * 2 ^ 64 + l) / 2 ^ 64 = m := by omega
    have h2 : (m * 2 ^ 64 + l) % 2 ^ 64 = l := by omega
    rw [h1, h2]

/-- Witness for C9 at the concrete pair `(3, 4)` and value `7`. -/
theorem u64_pair_roundtrip_witness :
    ULID.from_u64_pair (ULID.to_u64_pair ⟨7⟩) = (⟨7⟩ : ULID)
      ∧ ULID.to_u64_pair (ULID.from_u64_pair (3, 4)) = (3, 4) :=
  ⟨u64_pair_roundtrip.1 7,
   (u64_pair_roundtrip.2 3 4 (by norm_num) (by norm_num)).1⟩

/-- C10: the default identifier is the nil identifier: its integer value is
0 and `is_nil` holds on it. -/
theorem default_is_nil :
    ULID.default = ULID.nil ∧ ULID.default.val = 0
      ∧ ULID.is_nil ULID.default = true :=
  ⟨rfl, rfl, rfl⟩

/-! ### Error characterization of `decode` -/

theorem decodeLoop_ne_invalidLength : ∀ (s : List Nat) (A : Nat),
    decodeLoop s A ≠ .error .InvalidLength
  | [], A => by simp [decodeLoop]
  | b :: rest, A => by
      by_cases hb : lookupByte b ≠ NO_VALUE
      · rw [show decodeLoop (b :: rest) A
              = decodeLoop rest (decodeStep A (lookupByte b)) from by simp [decodeLoop, hb]]
        exact decodeLoop_ne_invalidLength rest _
      · rw [show decodeLoop (b :: rest) A = .error .InvalidChar from by simp [decodeLoop, hb]]
        simp

theorem decodeLoop_invalidChar_iff : ∀ (s : List Nat) (A : Nat),
    decodeLoop s A = .error .InvalidChar ↔ ∃ b ∈ s, lookupByte b = NO_VALUE
  | [], A => by simp [decodeLoop]
  | b :: rest, A => by
      by_cases hb : lookupByte b ≠ NO_VALUE
      · rw [show decodeLoop (b :: rest) A
              = decodeLoop rest (decodeStep A (lookupByte b)) from by simp [decodeLoop, hb]]
        rw [decodeLoop_invalidChar_iff rest _]
        simp [hb]
      · rw [show decodeLoop (b :: rest) A = .error .InvalidChar from by simp [decodeLoop, hb]]
        simp at hb
        simp [hb]

theorem decodeLoop_ok_of_valid : ∀ (s : List Nat) (A : Nat),
    (∀ b ∈ s, lookupByte b ≠ NO_VALUE) → ∃ v, decodeLoop s A = .ok v
  | [], A, _ => ⟨A, rfl⟩
  | b :: rest, A, h => by
      have hb : lookupByte b ≠ NO_VALUE := h b (List.mem_cons_self b rest)
      rw [show decodeLoop (b :: rest) A
            = decodeLoop rest (decodeStep A (lookupByte b)) from by simp [decodeLoop, hb]]
      exact decodeLoop_ok_of_valid rest _ (fun c hc => h c (List.mem_cons_of_mem b hc))

/-- C4: `decode` fails with `InvalidLength` exactly on inputs whose length
is not 26 (regardless of their content, so the length check precedes any
character inspection); on length-26 inputs it fails with `InvalidChar`
exactly when some byte maps to the sentinel entry of the lookup table and
succeeds otherwise; and the bytes of the letters I, L, O, U — both
uppercase and lowercase — all map to the sentinel. -/
theorem decode_error_characterization (s : List Nat) :
    (decode s = .error .InvalidLength ↔ s.length ≠ 26)
    ∧ (s.length = 26 →
        ((decode s = .error .InvalidChar ↔ ∃ b ∈ s, lookupByte b = NO_VALUE)
          ∧ ((∀ b ∈ s, lookupByte b ≠ NO_VALUE) → ∃ v, decode s = .ok v)))
    ∧ (lookupByte 73 = NO_VALUE ∧ lookupByte 76 = NO_VALUE
        ∧ lookupByte 79 = NO_VALUE ∧ lookupByte 85 = NO_VALUE
        ∧ lookupByte 105 = NO_VALUE ∧ lookupByte 108 = NO_VALUE
        ∧ lookupByte 111 = NO_VALUE ∧ lookupByte 117 = NO_VALUE) := by
  refine ⟨⟨?_, ?_⟩, ?_, by decide⟩
  · intro h hlen
    rw [show decode s = decodeLoop s 0 from by simp [decode, ULID_LEN, hlen]] at h
    exact decodeLoop_ne_invalidLength s 0 h
  · intro h
    simp [decode, ULID_LEN, h]
  · intro hlen
    rw [show decode s = decodeLoop s 0 from by simp [decode, ULID_LEN, hlen]]
    exact ⟨decodeLoop_invalidChar_iff s 0, decodeLoop_ok_of_valid s 0⟩

/-- Witness for C4: the empty input fails with `InvalidLength`, and 26
copies of the excluded letter I fail with `InvalidChar`. -/
theorem decode_error_characterization_witness :
    decode [] = .error .InvalidLength
      ∧ decode (List.replicate 26 73) = .error .InvalidChar :=
  ⟨(decode_error_characterization []).1.mpr (by decide),
   ((decode_error_characterization (List.replicate 26 73)).2.1
      (by decide)).1.mpr (by decide)⟩

/-- C6: on any 26-byte input all of whose bytes are in the (case-insensitive)
alphabet, `decode` succeeds — in particular it never rejects a leading
character whose digit value exceeds 7 — and the returned value is the
left-to-right shift-accumulate of the 26 five-bit digits reduced modulo
`2 ^ 128`, so the two most-significant bits of the 130-bit digit string are
silently dropped instead of raising a range error. -/
theorem decode_mod_truncation (s : List Nat) (hlen : s.length = 26)
    (hvalid : ∀ b ∈ s, lookupByte b ≠ NO_VALUE) :
    decode s =
      .ok (List.foldl (fun a d => a * 32 + d) 0 (s.map lookupByte) % 2 ^ 128) := by
  rw [show decode s = decodeLoop s 0 from by simp [decode, ULID_LEN, hlen]]
  have h := decodeLoop_valid s 0 hvalid
  rw [Nat.zero_mod] at h
  exact h

/-- Witness for C6 on 26 copies of the letter Z (digit 31, so the leading
digit is well above 7 and the accumulated value overflows 128 bits). -/
theorem decode_mod_truncation_witness :
    decode (List.replicate 26 90) =
      .ok (List.foldl (fun a d => a * 32 + d) 0
        ((List.replicate 26 90).map lookupByte) % 2 ^ 128) :=
  decode_mod_truncation (List.replicate 26 90) (by decide) (by decide)

/-! ### Case insensitivity -/

theorem lookup_to_uppercase (b : Nat) :
    lookupByte (to_uppercase b) = lookupByte b := by
  by_cases hb : b < 256
  · have hball : ∀ c, c < 256 → lookupByte (to_uppercase c) = lookupByte c := by decide
    exact hball b hb
  · have hup : to_uppercase b = b := by
      unfold to_uppercase
      rw [if_neg (by omega)]
    rw [hup]

theorem decodeLoop_to_uppercase : ∀ (s : List Nat) (A : Nat),
    decodeLoop (s.map to_uppercase) A = decodeLoop s A
  | [], A => rfl
  | b :: rest, A => by
      simp only [List.map_cons, decodeLoop, lookup_to_uppercase b]
      by_cases hb : lookupByte b ≠ NO_VALUE
      · simp only [if_pos hb]
        exact decodeLoop_to_uppercase rest _
      · simp only [if_neg hb]

/-- C8: `decode` is unchanged by uppercasing its input, and every lowercase
letter maps to the same five-bit digit in the lookup table as its uppercase
form (32 positions below it). -/
theorem decode_case_insensitive :
    (∀ s : List Nat, decode s = decode (s.map to_uppercase))
    ∧ (∀ b : Nat, 97 ≤ b → b ≤ 122 → lookupByte b = lookupByte (b - 32)) := by
  constructor
  · intro s
    unfold decode
    rw [List.length_map, decodeLoop_to_uppercase s 0]
  · intro b h1 h2
    have hball : ∀ c, c < 123 → 97 ≤ c → lookupByte c = lookupByte (c - 32) := by decide
    exact hball b (by omega) h1

/-- Witness for C8 on 26 copies of the lowercase letter k (byte 107), whose
uppercase form is K (byte 75). -/
theorem decode_case_insensitive_witness :
    decode (List.replicate 26 107) = decode ((List.replicate 26 107).map to_uppercase)
      ∧ lookupByte 107 = lookupByte 75 :=
  ⟨decode_case_insensitive.1 (List.replicate 26 107),
   decode_case_insensitive.2 107 (by norm_num) (by norm_num)⟩

/-! ### Ordering equivalence -/

theorem digitsBE_mod : ∀ (n v : Nat), digitsBE n (v % 32 ^ n) = digitsBE n v := by
  intro n
  induction n with
  | zero => intro v; rfl
  | succ n ih =>
      intro v
      have hdvd : (32 : Nat) ^ n ∣ 32 ^ (n + 1) := pow_dvd_pow 32 (by omega)
      have hhead : v % 32 ^ (n + 1) / 32 ^ n % 32 = v / 32 ^ n % 32 := by
        rw [pow_succ, Nat.mod_mul_right_div_self, Nat.mod_mod_of_dvd _ (dvd_refl 32)]
      have htail : digitsBE n (v % 32 ^ (n + 1)) = digitsBE n v := by
        calc digitsBE n (v % 32 ^ (n + 1))
            = digitsBE n (v % 32 ^ (n + 1) % 32 ^ n) := (ih _).symm
          _ = digitsBE n (v % 32 ^ n) := by rw [Nat.mod_mod_of_dvd v hdvd]
          _ = digitsBE n v := ih v
      show v % 32 ^ (n + 1) / 32 ^ n % 32 :: digitsBE n (v % 32 ^ (n + 1))
          = v / 32 ^ n % 32 :: digitsBE n v
      rw [hhead, htail]

theorem digitsBE_lex : ∀ (n a b : Nat), a < b → b < 32 ^ n →
    List.Lex (· < ·) ((digitsBE n a).map (fun d => ALPHABET.getD d 0))
      ((digitsBE n b).map (fun d => ALPHABET.getD d 0)) := by
  intro n
  induction n with
  | zero =>
      intro a b hab hb
      rw [pow_zero] at hb
      omega
  | succ n ih =>
      intro a b hab hb
      have hpow : (0 : Nat) < 32 ^ n := pow_pos (by norm_num) n
      have hbdiv : b / 32 ^ n < 32 := by
        rw [Nat.div_lt_iff_lt_mul hpow]
        calc b < 32 ^ (n + 1) := hb
          _ = 32 * 32 ^ n := by rw [pow_succ']
      have hadiv : a / 32 ^ n < 32 := by
        rw [Nat.div_lt_iff_lt_mul hpow]
        calc a < b := hab
          _ < 32 ^ (n + 1) := hb
          _ = 32 * 32 ^ n := by rw [pow_succ']
      simp only [digitsBE, List.map_cons]
      rw [Nat.mod_eq_of_lt hadiv, Nat.mod_eq_of_lt hbdiv]
      rcases Nat.lt_trichotomy (a / 32 ^ n) (b / 32 ^ n) with h | h | h
      · exact List.Lex.rel (alphabet_strictMono _ _ hadiv hbdiv h)
      · rw [h]
        apply List.Lex.cons
        rw [← digitsBE_mod n a, ← digitsBE_mod n b]
        apply ih (a % 32 ^ n) (b % 32 ^ n) ?_ (Nat.mod_lt _ hpow)
        have ea := Nat.div_add_mod a (32 ^ n)
        have eb := Nat.div_add_mod b (32 ^ n)
        rw [h] at ea
        have hsum : 32 ^ n * (b / 32 ^ n) + a % 32 ^ n
            < 32 ^ n * (b / 32 ^ n) + b % 32 ^ n := by
          rw [ea, eb]
          exact hab
        exact Nat.lt_of_add_lt_add_left hsum
      · exfalso
        have hge : 32 ^ n * (b / 32 ^ n) + 32 ^ n ≤ 32 ^ n * (a / 32 ^ n) := by
          calc 32 ^ n * (b / 32 ^ n) + 32 ^ n = 32 ^ n * (b / 32 ^ n + 1) := by ring
            _ ≤ 32 ^ n * (a / 32 ^ n) := Nat.mul_le_mul_left _ (Nat.succ_le_of_lt h)
        have hmodb : b % 32 ^ n < 32 ^ n := Nat.mod_lt _ hpow
        have hba : b < a := by
          calc b = 32 ^ n * (b / 32 ^ n) + b % 32 ^ n := (Nat.div_add_mod b (32 ^ n)).symm
            _ < 32 ^ n * (b / 32 ^ n) + 32 ^ n := Nat.add_lt_add_left hmodb _
            _ ≤ 32 ^ n * (a / 32 ^ n) := hge
            _ ≤ a := Nat.le.intro (Nat.div_add_mod a (32 ^ n))
        exact absurd hab (Nat.lt_asymm hba)

/-- C3: for 128-bit `a < b`, the identifier built on `a` is below the one
built on `b` under the type's comparison, and the encoding of `a` is
strictly below the encoding of `b` in byte-wise lexicographic order. -/
theorem ulid_order_equivalence (a b : Nat) (hab : a < b) (hb : b < 2 ^ 128) :
    ULID.mk a < ULID.mk b ∧ List.Lex (· < ·) (encode a) (encode b) := by
  constructor
  · exact hab
  · rw [encode_eq_digits, encode_eq_digits]
    exact digitsBE_lex 26 a b hab
      (lt_of_lt_of_le hb (by norm_num : (2 : Nat) ^ 128 ≤ 32 ^ 26))

/-- Witness for C3 at the concrete pair `3 < 5`. -/
theorem ulid_order_equivalence_witness :
    ULID.mk 3 < ULID.mk 5 ∧ List.Lex (· < ·) (encode 3) (encode 5) :=
  ulid_order_equivalence 3 5 (by norm_num) (by norm_num)

/-! ### The buffer-bounded encode claim -/

/-- C5 counterexample: the claim says `encode_to_array` reports
`BufferTooSmall` when given fewer than 26 bytes of output space, yet the
function's result is the plain buffer — there is no error channel at all,
and its Rust signature (`&mut [u8; ULID_LEN]`) makes a short buffer
unrepresentable. At the concrete 10-byte buffer the claimed behaviour is
`BufferTooSmall` while the actual function still returns a buffer. -/
theorem encode_to_array_claimed_mismatch :
    Except.ok (encode_to_array 0 (List.replicate 10 0))
      ≠ encode_to_array_claimed 0 (List.replicate 10 0) := by
  decide

/-- C5 amended: `encode_to_array` requires a 26-byte buffer at the type
level and is total — it never produces an error; it overwrites the whole
buffer, so its result equals `encode`'s output regardless of the initial
buffer contents and always has length 26. -/
theorem encode_to_array_total (v : Nat) (buffer : List Nat)
    (h : buffer.length = 26) :
    encode_to_array v buffer = encode v
      ∧ (encode_to_array v buffer).length = 26 := by
  have h1 := encode_to_array_eq_digits v buffer h
  refine ⟨?_, ?_⟩
  · rw [h1, encode_eq_digits]
  · rw [h1, List.length_map, digitsBE_length]

/-- Witness for C5's amended statement at value 7 on a buffer of 26 ones. -/
theorem encode_to_array_total_witness :
    encode_to_array 7 (List.replicate 26 1) = encode 7
      ∧ (encode_to_array 7 (List.replicate 26 1)).length = 26 :=
  encode_to_array_total 7 (List.replicate 26 1) (by decide)
